import Mathlib

/-!
Verification development for the BJJ Flow Diagram dynamic layout engine.

The repository ships the engine's tests, helpers and documentation; the
engine itself (visibility resolver, column packer, position layout solver)
is described by the design spec.  Those components are therefore modelled
from the spec below, while the test helper `getZoomTransform` is embedded
directly from the repository's `tests/helpers.js` source.
-/

namespace BJJ

/-- Modelled from the spec: the six fixed technique category tags
(data-model section; the Entity Graph source is not in the repository). -/
inductive Category where
  | escape
  | counter
  | submission
  | sweep
  | pass
  | takedown
deriving DecidableEq, Repr

/-- Modelled from the spec: the three difficulty tags. -/
inductive Difficulty where
  | basic
  | intermediate
  | advanced
deriving DecidableEq, Repr

/-- Modelled from the spec: a Technique record — id, parent position id,
category, difficulty.  Counters are Techniques with category `counter`. -/
structure Technique where
  id : Nat
  positionId : Nat
  category : Category
  difficulty : Difficulty
deriving DecidableEq, Repr

/-- Modelled from the spec: a Position — id and its outgoing techniques
are recovered from each technique's parent position id. -/
structure Position where
  id : Nat
deriving DecidableEq, Repr

/-- Modelled from the spec: the immutable Entity Graph
`{positions, techniques, counterLinks}`; `counterLinks` maps a submission
id to its counter id. -/
structure Graph where
  positions : List Position
  techniques : List Technique
  counterLinks : List (Nat × Nat)
deriving DecidableEq, Repr

/-- Modelled from the spec: the FilterState consumed by the layout
pipeline — a single difficulty level and the set of active categories. -/
structure FilterState where
  difficultyLevel : Difficulty
  activeCategories : List Category
deriving DecidableEq, Repr

/-- Modelled from the spec: a technique matches the filters iff its
difficulty equals the selected level and its category is active. -/
def techMatches (fs : FilterState) (t : Technique) : Bool :=
  t.difficulty == fs.difficultyLevel && fs.activeCategories.contains t.category

/-- Modelled from the spec: resolve a counter's back-reference to its
parent submission — look up the counter link by counter id, then the
referenced technique, which must be a submission-category technique. -/
def parentSubmission (g : Graph) (c : Technique) : Option Technique :=
  match g.counterLinks.find? (fun l => l.2 == c.id) with
  | none => none
  | some l => g.techniques.find? (fun t => t.id == l.1 && t.category == Category.submission)

/-- Modelled from the spec (4.1 Visibility Resolver): a technique is
visible iff it matches the filters, and a counter is additionally visible
only if its parent submission is visible (counters never appear as
orphans); a counter whose back-reference does not resolve is dropped. -/
def visible (g : Graph) (fs : FilterState) (t : Technique) : Bool :=
  techMatches fs t &&
    (if t.category == Category.counter then
      match parentSubmission g t with
      | some s => techMatches fs s
      | none => false
    else true)

/-- Modelled from the spec: fixed category display order used to order
each position's visible-technique list by category. -/
def catOrderAll : List Category :=
  [Category.escape, Category.pass, Category.submission, Category.sweep,
   Category.takedown, Category.counter]

/-- Modelled from the spec: techniques whose parent position is `p`. -/
def positionTechs (g : Graph) (p : Position) : List Technique :=
  g.techniques.filter (fun t => t.positionId == p.id)

/-- Modelled from the spec: stable ordering of a technique list by the
fixed category display order. -/
def orderByCategory (l : List Technique) : List Technique :=
  catOrderAll.flatMap (fun c => l.filter (fun t => t.category == c))

/-- Modelled from the spec (4.1): the ordered-by-category list of visible
techniques of a position. -/
def visibleTechs (g : Graph) (fs : FilterState) (p : Position) : List Technique :=
  orderByCategory ((positionTechs g p).filter (visible g fs))

/-- Modelled from the spec (4.2 Column Packer): fuel-driven worker for the
column packer; the fuel always dominates the list length, so the fuel case
never truncates a real run. -/
def packColumnsAux {α : Type} : Nat → List α → List (List α)
  | _, [] => []
  | 0, l => [l]
  | fuel + 1, a :: l => (a :: l.take 5) :: packColumnsAux fuel (l.drop 5)

/-- Modelled from the spec (4.2 Column Packer): bin a technique group into
columns with a hard cap of 6 techniques per column; overflow starts a new
column. -/
def packColumns {α : Type} (l : List α) : List (List α) :=
  packColumnsAux l.length l

theorem packColumnsAux_congr {α : Type} :
    ∀ (f1 : Nat), ∀ (f2 : Nat) (l : List α), l.length ≤ f1 → l.length ≤ f2 →
      packColumnsAux f1 l = packColumnsAux f2 l := by
  intro f1
  induction f1 with
  | zero =>
    intro f2 l h1 _
    have : l = [] := List.length_eq_zero.mp (Nat.le_zero.mp h1)
    subst this
    cases f2 <;> rfl
  | succ f1 ih =>
    intro f2 l h1 h2
    cases l with
    | nil => cases f2 <;> rfl
    | cons a l =>
      simp only [List.length_cons] at h1 h2
      cases f2 with
      | zero => omega
      | succ f2 =>
        simp only [packColumnsAux]
        rw [ih f2 (l.drop 5) (by simp only [List.length_drop]; omega)
          (by simp only [List.length_drop]; omega)]

theorem packColumns_nil {α : Type} : packColumns ([] : List α) = [] := rfl

theorem packColumns_cons {α : Type} (a : α) (l : List α) :
    packColumns (a :: l) = (a :: l.take 5) :: packColumns (l.drop 5) := by
  simp only [packColumns, List.length_cons, packColumnsAux]
  rw [packColumnsAux_congr l.length (l.drop 5).length (l.drop 5)
    (by simp only [List.length_drop]; omega) (Nat.le_refl _)]

theorem packColumns_step {α : Type} (l : List α) (h : l ≠ []) :
    packColumns l = l.take 6 :: packColumns (l.drop 6) := by
  cases l with
  | nil => exact absurd rfl h
  | cons a l => simp [packColumns_cons]

theorem packColumns_eq_nil_iff {α : Type} (l : List α) :
    packColumns l = [] ↔ l = [] := by
  cases l with
  | nil => simp [packColumns_nil]
  | cons a l => simp [packColumns_cons]

theorem packColumns_cap {α : Type} :
    ∀ (n : Nat) (l : List α), l.length ≤ n → ∀ c ∈ packColumns l, c.length ≤ 6 := by
  intro n
  induction n with
  | zero =>
    intro l hl c hc
    have : l = [] := List.length_eq_zero.mp (Nat.le_zero.mp hl)
    subst this
    simp [packColumns_nil] at hc
  | succ n ih =>
    intro l hl c hc
    cases l with
    | nil => simp [packColumns_nil] at hc
    | cons a l =>
      rw [packColumns_cons] at hc
      rcases List.mem_cons.mp hc with h1 | h2
      · subst h1
        simp only [List.length_cons, List.length_take]
        omega
      · apply ih (l.drop 5) _ c h2
        simp only [List.length_drop]
        simp only [List.length_cons] at hl
        omega

theorem packColumns_flatten {α : Type} :
    ∀ (n : Nat) (l : List α), l.length ≤ n → (packColumns l).flatten = l := by
  intro n
  induction n with
  | zero =>
    intro l hl
    have : l = [] := List.length_eq_zero.mp (Nat.le_zero.mp hl)
    subst this
    simp [packColumns_nil]
  | succ n ih =>
    intro l hl
    cases l with
    | nil => simp [packColumns_nil]
    | cons a l =>
      rw [packColumns_cons]
      simp only [List.flatten_cons]
      rw [ih (l.drop 5) (by simp only [List.length_drop]; simp only [List.length_cons] at hl; omega)]
      simp [List.take_append_drop]

theorem mem_packColumns_flatten {α : Type} (l : List α) (a : α) (h : a ∈ l) :
    ∃ c ∈ packColumns l, a ∈ c := by
  have hj := packColumns_flatten l.length l (Nat.le_refl _)
  rw [← hj] at h
  exact List.mem_flatten.mp h

theorem packColumns_length13 {α : Type} (l : List α) (h : l.length = 13) :
    (packColumns l).map List.length = [6, 6, 1] := by
  have h1 : l ≠ [] := by intro he; subst he; simp at h
  rw [packColumns_step l h1]
  have h2 : (l.drop 6).length = 7 := by simp [h]
  have h2n : l.drop 6 ≠ [] := by
    intro he; rw [he] at h2; simp at h2
  rw [packColumns_step _ h2n]
  have h3 : ((l.drop 6).drop 6).length = 1 := by simp [h]
  have h3n : (l.drop 6).drop 6 ≠ [] := by
    intro he; rw [he] at h3; simp at h3
  rw [packColumns_step _ h3n]
  have h4 : (((l.drop 6).drop 6).drop 6) = [] := by
    apply List.length_eq_zero.mp
    simp [h]
  rw [h4, packColumns_nil]
  simp only [List.map_cons, List.map_nil, List.length_take]
  rw [h, h2, h3]
  decide

/-- C3: within a category group, the Column Packer bins techniques into
columns of at most 6 techniques each, starting a new column on overflow;
a group of exactly 13 techniques packs into exactly 3 columns of sizes
6, 6 and 1. -/
theorem c3_column_capacity (l : List Technique) :
    (∀ c ∈ packColumns l, c.length ≤ 6) ∧
      (l.length = 13 → (packColumns l).map List.length = [6, 6, 1]) :=
  ⟨packColumns_cap l.length l (Nat.le_refl _), packColumns_length13 l⟩

/-- Modelled from the spec: a 13-technique category group used to witness
the column-capacity property. -/
def thirteenTechs : List Technique :=
  (List.range 13).map (fun i => ⟨i, 0, Category.submission, Difficulty.basic⟩)

theorem c3_column_capacity_witness :
    ((packColumns thirteenTechs).map List.length = [6, 6, 1]) ∧
      (thirteenTechs.take 6).length ≤ 6 := by
  refine ⟨(c3_column_capacity thirteenTechs).2 (by decide), ?_⟩
  exact (c3_column_capacity thirteenTechs).1 (thirteenTechs.take 6) (by decide)

theorem mem_catOrderAll (c : Category) : c ∈ catOrderAll := by
  cases c <;> simp [catOrderAll]

theorem mem_orderByCategory (l : List Technique) (t : Technique) :
    t ∈ orderByCategory l ↔ t ∈ l := by
  simp only [orderByCategory, List.mem_flatMap, List.mem_filter, beq_iff_eq]
  constructor
  · rintro ⟨c, _, ht, _⟩
    exact ht
  · intro h
    exact ⟨t.category, mem_catOrderAll _, h, rfl⟩

theorem contains_iff_mem (l : List Category) (c : Category) :
    l.contains c = true ↔ c ∈ l := by
  simp [List.contains, List.elem_iff]

theorem techMatches_iff (fs : FilterState) (t : Technique) :
    techMatches fs t = true ↔
      t.difficulty = fs.difficultyLevel ∧ t.category ∈ fs.activeCategories := by
  simp [techMatches, contains_iff_mem]

theorem visible_iff (g : Graph) (fs : FilterState) (t : Technique) :
    visible g fs t = true ↔
      (t.difficulty = fs.difficultyLevel ∧ t.category ∈ fs.activeCategories ∧
        (t.category = Category.counter →
          ∃ s, parentSubmission g t = some s ∧ s.difficulty = fs.difficultyLevel ∧
            s.category ∈ fs.activeCategories)) := by
  unfold visible
  by_cases hc : t.category = Category.counter
  · rcases hps : parentSubmission g t with _ | s
    · simp [hc, hps, techMatches_iff]
    · simp only [hc, beq_self_eq_true, if_true, hps, Bool.and_eq_true, techMatches_iff]
      constructor
      · rintro ⟨⟨h1, h2⟩, h3, h4⟩
        exact ⟨h1, h2, fun _ => ⟨s, rfl, h3, h4⟩⟩
      · rintro ⟨h1, h2, h3⟩
        rcases h3 trivial with ⟨s', hs', h4, h5⟩
        rw [Option.some_inj] at hs'
        subst hs'
        exact ⟨⟨h1, h2⟩, h4, h5⟩
  · have : (t.category == Category.counter) = false := by
      simp [hc]
    simp [this, techMatches_iff, hc]

theorem mem_visibleTechs_iff (g : Graph) (fs : FilterState) (p : Position) (t : Technique) :
    t ∈ visibleTechs g fs p ↔
      (t ∈ g.techniques ∧ t.positionId = p.id ∧ visible g fs t = true) := by
  simp only [visibleTechs, mem_orderByCategory, positionTechs, List.mem_filter, beq_iff_eq]
  tauto

/-- C1 (amended): a technique is visible at its position iff its
difficulty equals the selected level and its category is active, except
that a counter additionally requires its parent submission to resolve and
to be visible itself. -/
theorem c1_visibility_resolver (g : Graph) (fs : FilterState) (p : Position) (t : Technique) :
    t ∈ visibleTechs g fs p ↔
      (t ∈ g.techniques ∧ t.positionId = p.id ∧
        t.difficulty = fs.difficultyLevel ∧ t.category ∈ fs.activeCategories ∧
        (t.category = Category.counter →
          ∃ s, parentSubmission g t = some s ∧ s.difficulty = fs.difficultyLevel ∧
            s.category ∈ fs.activeCategories)) := by
  rw [mem_visibleTechs_iff, visible_iff]

/-- Modelled from the spec: the all-categories, basic-difficulty filter
state (the default). -/
def fsBasicAll : FilterState :=
  ⟨Difficulty.basic,
   [Category.escape, Category.counter, Category.submission, Category.sweep,
    Category.pass, Category.takedown]⟩

/-- Modelled from the spec: a graph with one position, an advanced
submission and a basic counter linked to it — the counter matches the
basic filter but its parent submission does not. -/
def orphanGraph : Graph :=
  ⟨[⟨0⟩],
   [⟨1, 0, Category.submission, Difficulty.advanced⟩,
    ⟨2, 0, Category.counter, Difficulty.basic⟩],
   [(1, 2)]⟩

/-- Modelled from the spec: the basic counter of `orphanGraph`. -/
def orphanCounter : Technique := ⟨2, 0, Category.counter, Difficulty.basic⟩

theorem c1_counterexample :
    (orphanCounter ∈ positionTechs orphanGraph ⟨0⟩ ∧
      orphanCounter.difficulty = fsBasicAll.difficultyLevel ∧
      orphanCounter.category ∈ fsBasicAll.activeCategories) ∧
    orphanCounter ∉ visibleTechs orphanGraph fsBasicAll ⟨0⟩ := by
  decide

theorem c1_visibility_resolver_witness :
    (⟨1, 0, Category.submission, Difficulty.advanced⟩ : Technique) ∉
      visibleTechs orphanGraph fsBasicAll ⟨0⟩ := by
  rw [c1_visibility_resolver]
  decide

theorem parentSubmission_isSubmission (g : Graph) (c s : Technique)
    (h : parentSubmission g c = some s) :
    s ∈ g.techniques ∧ s.category = Category.submission := by
  unfold parentSubmission at h
  rcases hl : g.counterLinks.find? (fun l => l.2 == c.id) with _ | l
  · rw [hl] at h
    exact absurd h (by simp)
  · rw [hl] at h
    refine ⟨List.mem_of_find?_eq_some h, ?_⟩
    have := List.find?_some h
    simp only [Bool.and_eq_true, beq_iff_eq] at this
    exact this.2

/-- C6: every visible counter's parent submission resolves and is itself
visible — the resolver never marks a counter visible when its parent
submission is filtered out, so no counter appears as an orphan. -/
theorem c6_no_orphan_counter (g : Graph) (fs : FilterState) (p : Position) (t : Technique)
    (h : t ∈ visibleTechs g fs p) (hc : t.category = Category.counter) :
    ∃ s, parentSubmission g t = some s ∧ s ∈ g.techniques ∧
      s.category = Category.submission ∧ visible g fs s = true := by
  rcases (mem_visibleTechs_iff g fs p t).mp h with ⟨_, _, hv⟩
  rcases (visible_iff g fs t).mp hv with ⟨_, _, h3⟩
  rcases h3 hc with ⟨s, hps, hd, hcat⟩
  rcases parentSubmission_isSubmission g t s hps with ⟨hmem, hsub⟩
  refine ⟨s, hps, hmem, hsub, ?_⟩
  rw [visible_iff]
  refine ⟨hd, hcat, ?_⟩
  intro hcounter
  rw [hsub] at hcounter
  exact absurd hcounter (by decide)

/-- Modelled from the spec: a graph with one position, a basic submission
and a basic counter linked to it — both visible under the default basic
filter. -/
def pairGraph : Graph :=
  ⟨[⟨0⟩],
   [⟨1, 0, Category.submission, Difficulty.basic⟩,
    ⟨2, 0, Category.counter, Difficulty.basic⟩],
   [(1, 2)]⟩

/-- Modelled from the spec: the basic counter of `pairGraph`. -/
def pairCounter : Technique := ⟨2, 0, Category.counter, Difficulty.basic⟩

theorem c6_no_orphan_counter_witness :
    ∃ s, parentSubmission pairGraph pairCounter = some s ∧ s ∈ pairGraph.techniques ∧
      s.category = Category.submission ∧ visible pairGraph fsBasicAll s = true :=
  c6_no_orphan_counter pairGraph fsBasicAll ⟨0⟩ pairCounter (by decide) (by decide)

/-- Modelled from the spec: fixed row height used for column extents. -/
def rowHeight : Int := 30

/-- Modelled from the spec: fixed inter-row spacing inside a column. -/
def rowSpacing : Int := 10

/-- Modelled from the spec: fixed horizontal width of one column slot. -/
def columnWidth : Int := 120

/-- Modelled from the spec: base horizontal offset of the first column
slot from a position's x. -/
def baseOffset : Int := 80

/-- Modelled from the spec: fixed vertical margin between positions. -/
def interPositionMargin : Int := 40

/-- Modelled from the spec: the epsilon tolerance of the overlap check. -/
def epsilon : Int := 5

/-- Modelled from the spec (4.2): a column's required vertical extent —
member count times row height plus inter-row spacing. -/
def colHeight (c : List Technique) : Int :=
  if c.isEmpty then 0
  else (c.length : Int) * rowHeight + ((c.length : Int) - 1) * rowSpacing

/-- Modelled from the spec: a vertical span of a placed column. -/
structure Span where
  lo : Int
  hi : Int
deriving DecidableEq, Repr

/-- Modelled from the spec: the vertical span a column occupies when its
rows start at the owning position's y. -/
def spanOf (y : Int) (c : List Technique) : Span :=
  ⟨y, y + colHeight c⟩

/-- Modelled from the spec: signed length of the intersection of two
vertical spans. -/
def overlapLen (s t : Span) : Int :=
  min s.hi t.hi - max s.lo t.lo

/-- Modelled from the spec: two spans overlap beyond the tolerance when
their intersection is longer than it. -/
def overlapsBeyond (e : Int) (s t : Span) : Prop :=
  e < overlapLen s t

/-- Modelled from the spec (4.3): the solver's pairwise check — a
candidate span intersects a placed span within the epsilon tolerance. -/
def intersectsWithin (e : Int) (s t : Span) : Bool :=
  decide (max s.lo t.lo ≤ min s.hi t.hi + e)

/-- Modelled from the spec (4.3): a column slot is free for a candidate
column when no column already placed at that slot intersects it within
the tolerance. -/
def slotFree (e y : Int) (placed : List (Nat × List Technique))
    (c : List Technique) (k : Nat) : Bool :=
  placed.all (fun q => q.1 != k || ! intersectsWithin e (spanOf y q.2) (spanOf y c))

/-- Modelled from the spec (4.3): scan slots upward from `k` for the
first free one; the fuel bounds the scan and always suffices. -/
def findSlotAux (e y : Int) (placed : List (Nat × List Technique))
    (c : List Technique) : Nat → Nat → Nat
  | 0, k => k
  | fuel + 1, k => if slotFree e y placed c k then k else findSlotAux e y placed c fuel (k + 1)

/-- Modelled from the spec: the largest slot index already in use. -/
def maxSlot (placed : List (Nat × List Technique)) : Nat :=
  placed.foldr (fun q m => max q.1 m) 0

/-- Modelled from the spec (4.3): the next unused (non-conflicting) slot
for a candidate column — the least slot free for it. -/
def findSlot (e y : Int) (placed : List (Nat × List Technique))
    (c : List Technique) : Nat :=
  findSlotAux e y placed c (maxSlot placed + 2) 0

/-- Modelled from the spec (4.3): place candidate columns one after the
other, each at the next slot free for it. -/
def placeColsAux (e y : Int) :
    List (List Technique) → List (Nat × List Technique) → List (Nat × List Technique)
  | [], placed => placed
  | c :: cs, placed => placeColsAux e y cs (placed ++ [(findSlot e y placed c, c)])

/-- Modelled from the spec (4.3): slot assignment for one side's columns
of one position. -/
def placeColumns (e y : Int) (cols : List (List Technique)) : List (Nat × List Technique) :=
  placeColsAux e y cols []

theorem le_maxSlot (placed : List (Nat × List Technique)) :
    ∀ q ∈ placed, q.1 ≤ maxSlot placed := by
  induction placed with
  | nil => intro q hq; simp at hq
  | cons a l ih =>
    intro q hq
    rcases List.mem_cons.mp hq with h | h
    · subst h
      simp [maxSlot, Nat.le_max_left]
    · calc q.1 ≤ maxSlot l := ih q h
        _ ≤ maxSlot (a :: l) := by simp [maxSlot, Nat.le_max_right]

theorem slotFree_of_gt_maxSlot (e y : Int) (placed : List (Nat × List Technique))
    (c : List Technique) (k : Nat) (h : maxSlot placed < k) :
    slotFree e y placed c k = true := by
  simp only [slotFree, List.all_eq_true]
  intro q hq
  have : q.1 < k := Nat.lt_of_le_of_lt (le_maxSlot placed q hq) h
  simp only [Bool.or_eq_true, bne_iff_ne]
  exact Or.inl (Nat.ne_of_lt this)

theorem findSlotAux_free (e y : Int) (placed : List (Nat × List Technique))
    (c : List Technique) :
    ∀ (fuel k : Nat), slotFree e y placed c (k + fuel) = true →
      slotFree e y placed c (findSlotAux e y placed c fuel k) = true := by
  intro fuel
  induction fuel with
  | zero => intro k h; simpa [findSlotAux] using h
  | succ fuel ih =>
    intro k h
    simp only [findSlotAux]
    by_cases hf : slotFree e y placed c k = true
    · simp [hf]
    · simp only [hf, if_false]
      apply ih (k + 1)
      have : k + 1 + fuel = k + (fuel + 1) := by omega
      rw [this]
      exact h

theorem findSlotAux_min (e y : Int) (placed : List (Nat × List Technique))
    (c : List Technique) :
    ∀ (fuel k j : Nat), k ≤ j → j < findSlotAux e y placed c fuel k →
      slotFree e y placed c j = false := by
  intro fuel
  induction fuel with
  | zero =>
    intro k j hkj hlt
    simp only [findSlotAux] at hlt
    omega
  | succ fuel ih =>
    intro k j hkj hlt
    simp only [findSlotAux] at hlt
    by_cases hf : slotFree e y placed c k = true
    · simp [hf] at hlt
      omega
    · simp only [hf, if_false] at hlt
      rcases Nat.eq_or_lt_of_le hkj with h | h
      · subst h
        exact Bool.eq_false_iff.mpr hf
      · exact ih (k + 1) j h hlt

theorem findSlot_free (e y : Int) (placed : List (Nat × List Technique))
    (c : List Technique) :
    slotFree e y placed c (findSlot e y placed c) = true := by
  apply findSlotAux_free
  apply slotFree_of_gt_maxSlot
  omega

theorem findSlot_min (e y : Int) (placed : List (Nat × List Technique))
    (c : List Technique) (j : Nat) (h : j < findSlot e y placed c) :
    slotFree e y placed c j = false :=
  findSlotAux_min e y placed c (maxSlot placed + 2) 0 j (Nat.zero_le _) h

/-- Modelled from the spec (8, invariants): two columns clash when they
share a slot yet their spans overlap beyond the tolerance; `noClash` is
the pairwise safety relation of the solved side. -/
def noClash (e y : Int) (a b : Nat × List Technique) : Prop :=
  a.1 = b.1 → ¬ overlapsBeyond e (spanOf y a.2) (spanOf y b.2)

theorem not_overlapsBeyond_of_not_intersects (e : Int) (he : 0 ≤ e) (s t : Span)
    (h : intersectsWithin e s t = false) : ¬ overlapsBeyond e s t := by
  simp only [intersectsWithin, decide_eq_false_iff_not, not_le] at h
  simp only [overlapsBeyond, overlapLen, not_lt]
  omega

theorem placeColsAux_pairwise (e y : Int) (he : 0 ≤ e) :
    ∀ (cols : List (List Technique)) (placed : List (Nat × List Technique)),
      List.Pairwise (noClash e y) placed →
      List.Pairwise (noClash e y) (placeColsAux e y cols placed) := by
  intro cols
  induction cols with
  | nil => intro placed h; exact h
  | cons c cs ih =>
    intro placed h
    simp only [placeColsAux]
    apply ih
    rw [List.pairwise_append]
    refine ⟨h, List.pairwise_singleton _ _, ?_⟩
    intro a ha b hb
    simp only [List.mem_singleton] at hb
    subst hb
    intro hslot
    have hfree := findSlot_free e y placed c
    simp only [slotFree, List.all_eq_true] at hfree
    have := hfree a ha
    simp only [hslot, bne_self_eq_false, Bool.false_or, Bool.not_eq_true'] at this
    exact not_overlapsBeyond_of_not_intersects e he _ _ this

theorem placeColsAux_snd (e y : Int) :
    ∀ (cols : List (List Technique)) (placed : List (Nat × List Technique)),
      (placeColsAux e y cols placed).map Prod.snd = placed.map Prod.snd ++ cols := by
  intro cols
  induction cols with
  | nil => intro placed; simp [placeColsAux]
  | cons c cs ih =>
    intro placed
    simp only [placeColsAux]
    rw [ih]
    simp

theorem colHeight_nonneg (c : List Technique) : 0 ≤ colHeight c := by
  unfold colHeight
  cases c with
  | nil => simp
  | cons a l =>
    rw [if_neg (by simp)]
    have h1 : (1 : Int) ≤ ((a :: l).length : Int) := by
      have : 1 ≤ (a :: l).length := by simp
      exact_mod_cast this
    unfold rowHeight rowSpacing
    linarith

theorem intersects_spanOf (y : Int) (c1 c2 : List Technique) :
    intersectsWithin epsilon (spanOf y c1) (spanOf y c2) = true := by
  simp only [intersectsWithin, spanOf, decide_eq_true_eq]
  have h1 := colHeight_nonneg c1
  have h2 := colHeight_nonneg c2
  have he : epsilon = 5 := rfl
  omega

theorem slotFree_of_fst_range (y : Int) (placed : List (Nat × List Technique))
    (c : List Technique) (m : Nat) (h : placed.map Prod.fst = List.range m) :
    slotFree epsilon y placed c m = true := by
  simp only [slotFree, List.all_eq_true]
  intro q hq
  have : q.1 ∈ List.range m := by
    rw [← h]
    exact List.mem_map_of_mem Prod.fst hq
  have : q.1 < m := List.mem_range.mp this
  simp only [Bool.or_eq_true, bne_iff_ne]
  exact Or.inl (Nat.ne_of_lt this)

theorem not_slotFree_of_lt (y : Int) (placed : List (Nat × List Technique))
    (c : List Technique) (m j : Nat) (h : placed.map Prod.fst = List.range m)
    (hj : j < m) : slotFree epsilon y placed c j = false := by
  have hjm : j ∈ placed.map Prod.fst := by
    rw [h]
    exact List.mem_range.mpr hj
  rcases List.mem_map.mp hjm with ⟨q, hq, hqj⟩
  apply Bool.eq_false_iff.mpr
  intro hall
  unfold slotFree at hall
  have hinst := (List.all_eq_true.mp hall) q hq
  simp only [hqj, bne_self_eq_false, Bool.false_or, Bool.not_eq_true'] at hinst
  rw [intersects_spanOf] at hinst
  exact absurd hinst (by simp)

theorem findSlot_of_fst_range (y : Int) (placed : List (Nat × List Technique))
    (c : List Technique) (m : Nat) (h : placed.map Prod.fst = List.range m) :
    findSlot epsilon y placed c = m := by
  rcases Nat.lt_trichotomy (findSlot epsilon y placed c) m with hlt | heq | hgt
  · have h1 := findSlot_free epsilon y placed c
    have h2 := not_slotFree_of_lt y placed c m _ h hlt
    rw [h1] at h2
    exact absurd h2 (by simp)
  · exact heq
  · have h1 := findSlot_min epsilon y placed c m hgt
    have h2 := slotFree_of_fst_range y placed c m h
    rw [h2] at h1
    exact absurd h1 (by simp)

theorem placeColsAux_fst_range (y : Int) :
    ∀ (cols : List (List Technique)) (placed : List (Nat × List Technique)) (m : Nat),
      placed.map Prod.fst = List.range m →
      (placeColsAux epsilon y cols placed).map Prod.fst = List.range (m + cols.length) := by
  intro cols
  induction cols with
  | nil => intro placed m h; simpa using h
  | cons c cs ih =>
    intro placed m h
    simp only [placeColsAux]
    have hs : findSlot epsilon y placed c = m := findSlot_of_fst_range y placed c m h
    have hnext : (placed ++ [(findSlot epsilon y placed c, c)]).map Prod.fst =
        List.range (m + 1) := by
      rw [List.map_append, h, hs]
      simp [List.range_succ]
    have := ih (placed ++ [(findSlot epsilon y placed c, c)]) (m + 1) hnext
    rw [this]
    simp only [List.length_cons]
    congr 1
    omega

theorem placeColumns_fst (y : Int) (cols : List (List Technique)) :
    (placeColumns epsilon y cols).map Prod.fst = List.range cols.length := by
  have := placeColsAux_fst_range y cols [] 0 rfl
  simpa [placeColumns] using this

/-- Modelled from the spec (4.2): LEFT-side categories, display order. -/
def leftCats : List Category := [Category.escape, Category.pass]

/-- Modelled from the spec (4.2): RIGHT-side categories, display order. -/
def rightCats : List Category :=
  [Category.submission, Category.sweep, Category.takedown]

/-- Modelled from the spec: the visible techniques of one category at a
position. -/
def categoryGroup (g : Graph) (fs : FilterState) (p : Position) (cat : Category) :
    List Technique :=
  (visibleTechs g fs p).filter (fun t => t.category == cat)

/-- Modelled from the spec (4.2): the packed columns of one side, in the
side's category display order. -/
def sideColumns (cats : List Category) (g : Graph) (fs : FilterState) (p : Position) :
    List (List Technique) :=
  cats.flatMap (fun cat => packColumns (categoryGroup g fs p cat))

/-- Modelled from the spec (4.3): the visible counters rendered at a
position — counters whose parent submission belongs to it. -/
def counterCandidates (g : Graph) (fs : FilterState) (p : Position) : List Technique :=
  g.techniques.filter (fun c =>
    c.category == Category.counter && visible g fs c &&
      (match parentSubmission g c with
        | some s => s.positionId == p.id
        | none => false))

/-- Modelled from the spec (4.3): counter columns of a position, packed
with the same 6-per-column rule. -/
def counterColumns (g : Graph) (fs : FilterState) (p : Position) : List (List Technique) :=
  packColumns (counterCandidates g fs p)

/-- Modelled from the spec (4.3): the solved LEFT side of a position —
escape/pass columns assigned to slots. -/
def leftPlaced (g : Graph) (fs : FilterState) (p : Position) (y : Int) :
    List (Nat × List Technique) :=
  placeColumns epsilon y (sideColumns leftCats g fs p)

/-- Modelled from the spec (4.3): the solved RIGHT side of a position —
counter columns sit innermost, then submission/sweep/takedown columns. -/
def rightPlaced (g : Graph) (fs : FilterState) (p : Position) (y : Int) :
    List (Nat × List Technique) :=
  placeColumns epsilon y (counterColumns g fs p ++ sideColumns rightCats g fs p)

/-- C4: in the solved layout of every position no two same-side columns
sharing a slot have spans overlapping beyond the epsilon tolerance, and a
candidate column is placed at the least slot free for it — any slot below
the chosen one conflicts. -/
theorem c4_overlap_avoidance (g : Graph) (fs : FilterState) (p : Position) (y : Int) :
    (List.Pairwise (noClash epsilon y) (leftPlaced g fs p y) ∧
      List.Pairwise (noClash epsilon y) (rightPlaced g fs p y)) ∧
    (∀ (placed : List (Nat × List Technique)) (c : List Technique),
      slotFree epsilon y placed c (findSlot epsilon y placed c) = true ∧
        ∀ j, j < findSlot epsilon y placed c → slotFree epsilon y placed c j = false) := by
  refine ⟨⟨?_, ?_⟩, ?_⟩
  · exact placeColsAux_pairwise epsilon y (by decide) _ [] List.Pairwise.nil
  · exact placeColsAux_pairwise epsilon y (by decide) _ [] List.Pairwise.nil
  · intro placed c
    exact ⟨findSlot_free epsilon y placed c, fun j hj => findSlot_min epsilon y placed c j hj⟩

/-- Modelled from the spec (4.3): the horizontal offset of a column slot
from its position's x — base offset plus slot index times column width. -/
def slotX (k : Nat) : Int :=
  baseOffset + (k : Int) * columnWidth

theorem counterCandidate_iff (g : Graph) (fs : FilterState) (p : Position) (c : Technique) :
    c ∈ counterCandidates g fs p ↔
      (c ∈ g.techniques ∧ c.category = Category.counter ∧ visible g fs c = true ∧
        ∃ s, parentSubmission g c = some s ∧ s.positionId = p.id) := by
  unfold counterCandidates
  rw [List.mem_filter]
  rcases hps : parentSubmission g c with _ | s
  · simp [hps]
  · simp only [hps, Bool.and_eq_true, beq_iff_eq]
    constructor
    · rintro ⟨hm, ⟨hcat, hv⟩, hpos⟩
      exact ⟨hm, hcat, hv, s, rfl, hpos⟩
    · rintro ⟨hm, hcat, hv, s', hs', hpos⟩
      rw [Option.some_inj] at hs'
      subst hs'
      exact ⟨hm, ⟨hcat, hv⟩, hpos⟩

/-- C2: a counter column is present at a position iff one of the
position's visible submissions has a visible counter; and when no counter
is visible on the right side, the right-side columns occupy the
consecutive slots from the base offset — no horizontal space is reserved
for counters. -/
theorem c2_counter_reservation (g : Graph) (fs : FilterState) (p : Position) (y : Int) :
    (counterColumns g fs p ≠ [] ↔
      ∃ s ∈ g.techniques, s.positionId = p.id ∧ s.category = Category.submission ∧
        visible g fs s = true ∧
        ∃ c ∈ g.techniques, c.category = Category.counter ∧
          parentSubmission g c = some s ∧ visible g fs c = true) ∧
    (counterColumns g fs p = [] →
      (rightPlaced g fs p y).map (fun q => slotX q.1) =
        (List.range (sideColumns rightCats g fs p).length).map slotX) := by
  constructor
  · unfold counterColumns
    rw [Ne, packColumns_eq_nil_iff]
    constructor
    · intro h
      rcases List.exists_mem_of_ne_nil _ h with ⟨c, hc⟩
      rcases (counterCandidate_iff g fs p c).mp hc with ⟨hm, hcat, hv, s, hps, hpos⟩
      rcases (visible_iff g fs c).mp hv with ⟨_, _, h3⟩
      rcases h3 hcat with ⟨s', hps', hd, hca⟩
      rw [hps] at hps'
      rw [Option.some_inj] at hps'
      subst hps'
      rcases parentSubmission_isSubmission g c s hps with ⟨hsm, hsub⟩
      refine ⟨s, hsm, hpos, hsub, ?_, c, hm, hcat, hps, hv⟩
      rw [visible_iff]
      refine ⟨hd, hca, ?_⟩
      intro hcc
      rw [hsub] at hcc
      exact absurd hcc (by decide)
    · rintro ⟨s, _, hpos, _, _, c, hm, hcat, hps, hv⟩
      intro hnil
      have : c ∈ counterCandidates g fs p :=
        (counterCandidate_iff g fs p c).mpr ⟨hm, hcat, hv, s, hps, hpos⟩
      rw [hnil] at this
      simp at this
  · intro h
    unfold rightPlaced
    rw [h, List.nil_append]
    have hfst := placeColumns_fst y (sideColumns rightCats g fs p)
    calc (placeColumns epsilon y (sideColumns rightCats g fs p)).map (fun q => slotX q.1)
        = ((placeColumns epsilon y (sideColumns rightCats g fs p)).map Prod.fst).map slotX := by
          rw [List.map_map]
          rfl
      _ = (List.range (sideColumns rightCats g fs p).length).map slotX := by rw [hfst]

theorem c2_counter_reservation_witness :
    ((rightPlaced orphanGraph fsBasicAll ⟨0⟩ 0).map (fun q => slotX q.1) =
      (List.range (sideColumns rightCats orphanGraph fsBasicAll ⟨0⟩).length).map slotX) ∧
      counterColumns pairGraph fsBasicAll ⟨0⟩ ≠ [] :=
  ⟨(c2_counter_reservation orphanGraph fsBasicAll ⟨0⟩ 0).2 (by decide),
    (c2_counter_reservation pairGraph fsBasicAll ⟨0⟩ 0).1.mpr (by decide)⟩

theorem c4_overlap_avoidance_witness :
    slotFree epsilon 0 [(0, [pairCounter])] [pairCounter] 0 = false ∧
      List.Pairwise (noClash epsilon 0) (leftPlaced pairGraph fsBasicAll ⟨0⟩ 0) :=
  ⟨((c4_overlap_avoidance pairGraph fsBasicAll ⟨0⟩ 0).2 [(0, [pairCounter])] [pairCounter]).2
      0 (by decide),
    (c4_overlap_avoidance pairGraph fsBasicAll ⟨0⟩ 0).1.1⟩

/-- Modelled from the spec (4.2): a side's height — its columns sit side
by side, so the side needs the tallest column's extent. -/
def sideHeight (cols : List (List Technique)) : Int :=
  cols.foldr (fun c m => max (colHeight c) m) 0

/-- Modelled from the spec (4.3): a position's vertical slot height —
the larger of its two sides' heights. -/
def slotHeight (g : Graph) (fs : FilterState) (p : Position) : Int :=
  max (sideHeight (sideColumns leftCats g fs p))
    (sideHeight (counterColumns g fs p ++ sideColumns rightCats g fs p))

/-- Modelled from the spec (4.3): stack positions downward in the fixed
domain order, spacing successive positions by slot height plus margin. -/
def positionRowsAux (g : Graph) (fs : FilterState) :
    List Position → Int → List (Position × Int)
  | [], _ => []
  | p :: ps, y =>
      (p, y) :: positionRowsAux g fs ps (y + slotHeight g fs p + interPositionMargin)

/-- Modelled from the spec (4.3): the vertical placement of all
positions, in the graph's fixed pre-defined order. -/
def positionRowsP (g : Graph) (fs : FilterState) : List (Position × Int) :=
  positionRowsAux g fs g.positions 0

/-- Modelled from the spec: the kind of a layout node. -/
inductive NodeKind where
  | pos
  | tech
deriving DecidableEq, Repr

/-- Modelled from the spec: a LayoutNode — derived, transient output of a
layout pass: entity id, resolved coordinates. -/
structure LayoutNode where
  kind : NodeKind
  nid : Nat
  x : Int
  y : Int
deriving DecidableEq, Repr

/-- Modelled from the spec: the nodes of one column — one technique per
row, rows spaced by row height plus row spacing. -/
def columnNodesAux (x : Int) : Int → List Technique → List LayoutNode
  | _, [] => []
  | yy, t :: ts =>
      ⟨NodeKind.tech, t.id, x, yy⟩ :: columnNodesAux x (yy + rowHeight + rowSpacing) ts

/-- Modelled from the spec: the nodes of a placed column; the side sign
mirrors LEFT columns to negative x. -/
def columnNodes (sideSign y : Int) (q : Nat × List Technique) : List LayoutNode :=
  columnNodesAux (sideSign * slotX q.1) y q.2

/-- Modelled from the spec: the layout nodes a single position
contributes — the position node and both sides' technique columns. -/
def positionBlock (g : Graph) (fs : FilterState) (py : Position × Int) : List LayoutNode :=
  ⟨NodeKind.pos, py.1.id, 0, py.2⟩ ::
    ((leftPlaced g fs py.1 py.2).flatMap (columnNodes (-1) py.2) ++
      (rightPlaced g fs py.1 py.2).flatMap (columnNodes 1 py.2))

/-- Modelled from the spec (9, design notes): the pure layout pipeline
`(Graph, FilterState) -> LayoutNode list`. -/
def solveLayout (g : Graph) (fs : FilterState) : List LayoutNode :=
  (positionRowsP g fs).flatMap (positionBlock g fs)

/-- Modelled from the spec: the position-node ids of a solved layout, in
layout order. -/
def posNodeIds (g : Graph) (fs : FilterState) : List Nat :=
  ((solveLayout g fs).filter (fun n => n.kind == NodeKind.pos)).map LayoutNode.nid

theorem columnNodesAux_kind (x : Int) :
    ∀ (ts : List Technique) (yy : Int), ∀ n ∈ columnNodesAux x yy ts, n.kind = NodeKind.tech := by
  intro ts
  induction ts with
  | nil => intro yy n hn; simp [columnNodesAux] at hn
  | cons t ts ih =>
    intro yy n hn
    rcases List.mem_cons.mp hn with h | h
    · subst h; rfl
    · exact ih _ n h

theorem positionBlock_filter_pos (g : Graph) (fs : FilterState) (py : Position × Int) :
    (positionBlock g fs py).filter (fun n => n.kind == NodeKind.pos) =
      [⟨NodeKind.pos, py.1.id, 0, py.2⟩] := by
  unfold positionBlock
  rw [List.filter_cons]
  simp only [beq_self_eq_true, if_true]
  have h : ((leftPlaced g fs py.1 py.2).flatMap (columnNodes (-1) py.2) ++
      (rightPlaced g fs py.1 py.2).flatMap (columnNodes 1 py.2)).filter
        (fun n => n.kind == NodeKind.pos) = [] := by
    rw [List.filter_eq_nil_iff]
    intro n hn
    have : n.kind = NodeKind.tech := by
      rcases List.mem_append.mp hn with h | h <;>
        · rcases List.mem_flatMap.mp h with ⟨q, _, hq⟩
          exact columnNodesAux_kind _ _ _ n hq
    simp [this]
  rw [h]

theorem positionRowsAux_posIds (g : Graph) (fs : FilterState) :
    ∀ (l : List Position) (y : Int),
      (((positionRowsAux g fs l y).flatMap (positionBlock g fs)).filter
          (fun n => n.kind == NodeKind.pos)).map LayoutNode.nid =
        l.map Position.id := by
  intro l
  induction l with
  | nil => intro y; simp [positionRowsAux]
  | cons p ps ih =>
    intro y
    simp only [positionRowsAux, List.flatMap_cons, List.filter_append, List.map_append,
      List.map_cons]
    rw [positionBlock_filter_pos, ih]
    simp

/-- C7: the sequence of position nodes in the solved layout is the fixed
pre-defined domain ordering of the graph, for every filter state — so
changing filters never changes the count or order of positions. -/
theorem c7_position_order (g : Graph) (fs fs' : FilterState) :
    posNodeIds g fs = g.positions.map Position.id ∧
      posNodeIds g fs = posNodeIds g fs' ∧
      (posNodeIds g fs).length = g.positions.length := by
  have h : ∀ fs0 : FilterState, posNodeIds g fs0 = g.positions.map Position.id := by
    intro fs0
    unfold posNodeIds solveLayout positionRowsP
    exact positionRowsAux_posIds g fs0 g.positions 0
  refine ⟨h fs, ?_, ?_⟩
  · rw [h fs, h fs']
  · rw [h fs]
    simp

/-- Modelled from the spec (4.4, 5): the previous frame's coordinate map,
the only state carried across passes, consumed by the diff stage only. -/
structure Frame where
  coords : List LayoutNode
deriving DecidableEq, Repr

/-- Modelled from the spec (4.4): the render diff — entering, updating
and leaving node sets between two frames. -/
structure SceneDiff where
  entering : List LayoutNode
  updating : List LayoutNode
  leaving : List LayoutNode
deriving DecidableEq, Repr

/-- Modelled from the spec (4.4): two layout nodes describe the same
scene entity when kind and id agree. -/
def sameNode (a b : LayoutNode) : Bool :=
  a.kind == b.kind && a.nid == b.nid

/-- Modelled from the spec (4.4): diff a layout frame against the
previous one. -/
def diffFrames (prev cur : Frame) : SceneDiff :=
  ⟨cur.coords.filter (fun n => ! prev.coords.any (sameNode n)),
    cur.coords.filter (fun n => prev.coords.any (sameNode n)),
    prev.coords.filter (fun n => ! cur.coords.any (sameNode n))⟩

/-- Modelled from the spec (2, control flow): one full pass — solve the
layout from graph and filters alone, then diff against the previous
frame; the previous frame feeds only the diff. -/
def renderPass (g : Graph) (fs : FilterState) (prev : Frame) : Frame × SceneDiff :=
  (⟨solveLayout g fs⟩, diffFrames prev ⟨solveLayout g fs⟩)

/-- C5: layout computation is a pure function of graph and filter state —
the produced frame is independent of the previous frame fed into the
pass, equals the pipeline output, and repeating a pass on its own output
reproduces identical coordinates. -/
theorem c5_layout_deterministic (g : Graph) (fs : FilterState) (prev1 prev2 : Frame) :
    (renderPass g fs prev1).1 = (renderPass g fs prev2).1 ∧
      (renderPass g fs prev1).1.coords = solveLayout g fs ∧
      (renderPass g fs (renderPass g fs prev1).1).1 = (renderPass g fs prev1).1 :=
  ⟨rfl, rfl, rfl⟩

/-- Modelled from the spec (4.3, failure semantics): a counter link is
resolvable when the referenced submission exists in the graph. -/
def resolvesLink (g : Graph) (l : Nat × Nat) : Bool :=
  (g.techniques.find? (fun t => t.id == l.1 && t.category == Category.submission)).isSome

/-- Modelled from the spec (4.3): the graph with its dangling counter
links dropped; positions and techniques are untouched. -/
def cleanGraph (g : Graph) : Graph :=
  { g with counterLinks := g.counterLinks.filter (resolvesLink g) }

theorem find?_filter_snd (pr : Nat × Nat → Bool) (n : Nat) :
    ∀ (L : List (Nat × Nat)), (L.map Prod.snd).Nodup →
      ((L.filter pr).find? (fun l => l.2 == n) = L.find? (fun l => l.2 == n) ∨
        ∃ l, L.find? (fun l => l.2 == n) = some l ∧ pr l = false ∧
          (L.filter pr).find? (fun l => l.2 == n) = none) := by
  intro L
  induction L with
  | nil => intro _; left; rfl
  | cons a L ih =>
    intro hnd
    simp only [List.map_cons, List.nodup_cons] at hnd
    rcases hnd with ⟨hna, hnd'⟩
    by_cases hm : (a.2 == n) = true
    · have hfull : (a :: L).find? (fun l => l.2 == n) = some a :=
        List.find?_cons_of_pos _ hm
      by_cases hp : pr a = true
      · left
        rw [List.filter_cons_of_pos hp, hfull]
        exact List.find?_cons_of_pos _ hm
      · right
        refine ⟨a, hfull, Bool.eq_false_iff.mpr hp, ?_⟩
        rw [List.filter_cons_of_neg (by simpa using hp)]
        rw [List.find?_eq_none]
        intro x hx
        have hxL : x ∈ L := List.mem_of_mem_filter hx
        simp only [beq_iff_eq]
        intro hxn
        apply hna
        have han : a.2 = n := by simpa using hm
        rw [han, ← hxn]
        exact List.mem_map_of_mem Prod.snd hxL
    · have hfull : (a :: L).find? (fun l => l.2 == n) = L.find? (fun l => l.2 == n) :=
        List.find?_cons_of_neg _ (by simpa using hm)
      by_cases hp : pr a = true
      · rw [List.filter_cons_of_pos hp,
          List.find?_cons_of_neg (List.filter pr L) (p := fun l => l.2 == n)
            (by simpa using hm), hfull]
        exact ih hnd'
      · rw [List.filter_cons_of_neg (by simpa using hp), hfull]
        exact ih hnd'

theorem parentSubmission_clean (g : Graph) (hnd : (g.counterLinks.map Prod.snd).Nodup)
    (c : Technique) : parentSubmission (cleanGraph g) c = parentSubmission g c := by
  show (match (g.counterLinks.filter (resolvesLink g)).find? (fun l => l.2 == c.id) with
      | none => (none : Option Technique)
      | some l =>
          g.techniques.find? (fun t : Technique =>
            t.id == l.1 && t.category == Category.submission)) =
    (match g.counterLinks.find? (fun l => l.2 == c.id) with
      | none => (none : Option Technique)
      | some l =>
          g.techniques.find? (fun t : Technique =>
            t.id == l.1 && t.category == Category.submission))
  rcases find?_filter_snd (resolvesLink g) c.id g.counterLinks hnd with h | ⟨l, hfull, hpr, hnone⟩
  · rw [h]
  · rw [hfull, hnone]
    have hn : g.techniques.find?
        (fun t => t.id == l.1 && t.category == Category.submission) = none := by
      rcases hfind : g.techniques.find?
          (fun t => t.id == l.1 && t.category == Category.submission) with _ | s
      · exact hfind
      · unfold resolvesLink at hpr
        rw [hfind] at hpr
        simp at hpr
    simp only []
    rw [hn]

theorem visible_clean (g : Graph) (hnd : (g.counterLinks.map Prod.snd).Nodup)
    (fs : FilterState) : visible (cleanGraph g) fs = visible g fs := by
  funext t
  unfold visible
  rw [parentSubmission_clean g hnd t]

theorem visibleTechs_clean (g : Graph) (hnd : (g.counterLinks.map Prod.snd).Nodup)
    (fs : FilterState) (p : Position) :
    visibleTechs (cleanGraph g) fs p = visibleTechs g fs p := by
  unfold visibleTechs positionTechs
  rw [show (cleanGraph g).techniques = g.techniques from rfl, visible_clean g hnd fs]

theorem counterCandidates_clean (g : Graph) (hnd : (g.counterLinks.map Prod.snd).Nodup)
    (fs : FilterState) (p : Position) :
    counterCandidates (cleanGraph g) fs p = counterCandidates g fs p := by
  unfold counterCandidates
  rw [show (cleanGraph g).techniques = g.techniques from rfl]
  apply List.filter_congr
  intro c _
  rw [visible_clean g hnd fs, parentSubmission_clean g hnd c]

theorem sideColumns_clean (g : Graph) (hnd : (g.counterLinks.map Prod.snd).Nodup)
    (cats : List Category) (fs : FilterState) (p : Position) :
    sideColumns cats (cleanGraph g) fs p = sideColumns cats g fs p := by
  unfold sideColumns categoryGroup
  rw [visibleTechs_clean g hnd fs p]

theorem counterColumns_clean (g : Graph) (hnd : (g.counterLinks.map Prod.snd).Nodup)
    (fs : FilterState) (p : Position) :
    counterColumns (cleanGraph g) fs p = counterColumns g fs p := by
  unfold counterColumns
  rw [counterCandidates_clean g hnd fs p]

theorem positionBlock_clean (g : Graph) (hnd : (g.counterLinks.map Prod.snd).Nodup)
    (fs : FilterState) (py : Position × Int) :
    positionBlock (cleanGraph g) fs py = positionBlock g fs py := by
  unfold positionBlock leftPlaced rightPlaced
  rw [sideColumns_clean g hnd leftCats fs py.1, sideColumns_clean g hnd rightCats fs py.1,
    counterColumns_clean g hnd fs py.1]

theorem slotHeight_clean (g : Graph) (hnd : (g.counterLinks.map Prod.snd).Nodup)
    (fs : FilterState) (p : Position) :
    slotHeight (cleanGraph g) fs p = slotHeight g fs p := by
  unfold slotHeight
  rw [sideColumns_clean g hnd leftCats fs p, sideColumns_clean g hnd rightCats fs p,
    counterColumns_clean g hnd fs p]

theorem positionRowsAux_clean (g : Graph) (hnd : (g.counterLinks.map Prod.snd).Nodup)
    (fs : FilterState) :
    ∀ (l : List Position) (y : Int),
      positionRowsAux (cleanGraph g) fs l y = positionRowsAux g fs l y := by
  intro l
  induction l with
  | nil => intro y; rfl
  | cons p ps ih =>
    intro y
    unfold positionRowsAux
    rw [slotHeight_clean g hnd fs p, ih]

theorem solveLayout_clean (g : Graph) (hnd : (g.counterLinks.map Prod.snd).Nodup)
    (fs : FilterState) : solveLayout (cleanGraph g) fs = solveLayout g fs := by
  unfold solveLayout positionRowsP
  rw [show (cleanGraph g).positions = g.positions from rfl,
    positionRowsAux_clean g hnd fs g.positions 0,
    funext (positionBlock_clean g hnd fs)]

theorem columnNodesAux_complete (x : Int) :
    ∀ (ts : List Technique) (yy : Int) (t : Technique), t ∈ ts →
      ∃ n ∈ columnNodesAux x yy ts, n.kind = NodeKind.tech ∧ n.nid = t.id := by
  intro ts
  induction ts with
  | nil => intro yy t ht; simp at ht
  | cons u ts ih =>
    intro yy t ht
    rcases List.mem_cons.mp ht with h | h
    · subst h
      exact ⟨⟨NodeKind.tech, t.id, x, yy⟩, List.mem_cons_self _ _, rfl, rfl⟩
    · rcases ih (yy + rowHeight + rowSpacing) t h with ⟨n, hn, hk⟩
      exact ⟨n, List.mem_cons_of_mem _ hn, hk⟩

theorem placeColumns_mem_col (y : Int) (cols : List (List Technique))
    (col : List Technique) (h : col ∈ cols) :
    ∃ q ∈ placeColumns epsilon y cols, q.2 = col := by
  have hsnd : (placeColumns epsilon y cols).map Prod.snd = cols := by
    have := placeColsAux_snd epsilon y cols []
    simpa [placeColumns] using this
  rw [← hsnd] at h
  rcases List.mem_map.mp h with ⟨q, hq, hqe⟩
  exact ⟨q, hq, hqe⟩

theorem placed_node_exists (y sgn : Int) (cols : List (List Technique))
    (col : List Technique) (hcol : col ∈ cols) (t : Technique) (ht : t ∈ col) :
    ∃ n ∈ (placeColumns epsilon y cols).flatMap (columnNodes sgn y),
      n.kind = NodeKind.tech ∧ n.nid = t.id := by
  rcases placeColumns_mem_col y cols col hcol with ⟨q, hq, hqe⟩
  rcases columnNodesAux_complete (sgn * slotX q.1) col y t ht with ⟨n, hn, hk⟩
  refine ⟨n, List.mem_flatMap.mpr ⟨q, hq, ?_⟩, hk⟩
  unfold columnNodes
  rw [hqe]
  exact hn

theorem positionRowsAux_mem (g : Graph) (fs : FilterState) :
    ∀ (l : List Position) (y0 : Int) (p : Position), p ∈ l →
      ∃ y, (p, y) ∈ positionRowsAux g fs l y0 := by
  intro l
  induction l with
  | nil => intro y0 p hp; simp at hp
  | cons q ps ih =>
    intro y0 p hp
    rcases List.mem_cons.mp hp with h | h
    · subst h
      exact ⟨y0, List.mem_cons_self _ _⟩
    · rcases ih (y0 + slotHeight g fs q + interPositionMargin) p h with ⟨y, hy⟩
      exact ⟨y, List.mem_cons_of_mem _ hy⟩

theorem solveLayout_mem (g : Graph) (fs : FilterState) (py : Position × Int)
    (hpy : py ∈ positionRowsP g fs) (n : LayoutNode) (hn : n ∈ positionBlock g fs py) :
    n ∈ solveLayout g fs :=
  List.mem_flatMap.mpr ⟨py, hpy, hn⟩

theorem block_tech_node (g : Graph) (fs : FilterState) (p : Position) (y : Int)
    (hrow : (p, y) ∈ positionRowsP g fs) (t : Technique)
    (h : (∃ col ∈ sideColumns leftCats g fs p, t ∈ col) ∨
      (∃ col ∈ counterColumns g fs p ++ sideColumns rightCats g fs p, t ∈ col)) :
    ∃ n ∈ solveLayout g fs, n.kind = NodeKind.tech ∧ n.nid = t.id := by
  rcases h with ⟨col, hc, ht⟩ | ⟨col, hc, ht⟩
  · rcases placed_node_exists y (-1) (sideColumns leftCats g fs p) col hc t ht with ⟨n, hn, hk⟩
    refine ⟨n, solveLayout_mem g fs (p, y) hrow n ?_, hk⟩
    exact List.mem_cons_of_mem _ (List.mem_append_left _ hn)
  · rcases placed_node_exists y 1 (counterColumns g fs p ++ sideColumns rightCats g fs p)
        col hc t ht with ⟨n, hn, hk⟩
    refine ⟨n, solveLayout_mem g fs (p, y) hrow n ?_, hk⟩
    exact List.mem_cons_of_mem _ (List.mem_append_right _ hn)

theorem mem_categoryGroup (g : Graph) (fs : FilterState) (p : Position) (t : Technique)
    (h : t ∈ visibleTechs g fs p) : t ∈ categoryGroup g fs p t.category := by
  unfold categoryGroup
  exact List.mem_filter.mpr ⟨h, by simp⟩

/-- C8: with well-formed inputs (each counter has a unique back-reference
target and every technique's parent position exists), a dangling counter
is invisible — dropped from the pass; the layout equals the layout of the
graph with dangling links removed, so a bad reference never disturbs the
rest; and the layout is complete: every position and every visible
technique receives a node. -/
theorem c8_dangling_counter (g : Graph) (fs : FilterState)
    (hnd : (g.counterLinks.map Prod.snd).Nodup)
    (hpos : ∀ t ∈ g.techniques, ∃ p ∈ g.positions, p.id = t.positionId) :
    (∀ c ∈ g.techniques, c.category = Category.counter → parentSubmission g c = none →
      visible g fs c = false) ∧
    solveLayout (cleanGraph g) fs = solveLayout g fs ∧
    (∀ p ∈ g.positions, ∃ n ∈ solveLayout g fs, n.kind = NodeKind.pos ∧ n.nid = p.id) ∧
    (∀ p ∈ g.positions, ∀ t ∈ visibleTechs g fs p,
      ∃ n ∈ solveLayout g fs, n.kind = NodeKind.tech ∧ n.nid = t.id) := by
  refine ⟨?_, solveLayout_clean g hnd fs, ?_, ?_⟩
  · intro c _ hc hps
    unfold visible
    rw [hps]
    simp [hc]
  · intro p hp
    rcases positionRowsAux_mem g fs g.positions 0 p hp with ⟨y, hy⟩
    refine ⟨⟨NodeKind.pos, p.id, 0, y⟩, solveLayout_mem g fs (p, y) hy _ ?_, rfl, rfl⟩
    exact List.mem_cons_self _ _
  · intro p hp t ht
    have hgrp := mem_categoryGroup g fs p t ht
    rcases positionRowsAux_mem g fs g.positions 0 p hp with ⟨y, hy⟩
    rcases hcat : t.category with he | hc | hs | hw | hpa | htk
    all_goals rw [hcat] at hgrp
    case escape =>
      rcases mem_packColumns_flatten _ t hgrp with ⟨col, hcol, htc⟩
      exact block_tech_node g fs p y hy t
        (Or.inl ⟨col, List.mem_flatMap.mpr ⟨Category.escape, by decide, hcol⟩, htc⟩)
    case pass =>
      rcases mem_packColumns_flatten _ t hgrp with ⟨col, hcol, htc⟩
      exact block_tech_node g fs p y hy t
        (Or.inl ⟨col, List.mem_flatMap.mpr ⟨Category.pass, by decide, hcol⟩, htc⟩)
    case submission =>
      rcases mem_packColumns_flatten _ t hgrp with ⟨col, hcol, htc⟩
      exact block_tech_node g fs p y hy t
        (Or.inr ⟨col, List.mem_append_right _
          (List.mem_flatMap.mpr ⟨Category.submission, by decide, hcol⟩), htc⟩)
    case sweep =>
      rcases mem_packColumns_flatten _ t hgrp with ⟨col, hcol, htc⟩
      exact block_tech_node g fs p y hy t
        (Or.inr ⟨col, List.mem_append_right _
          (List.mem_flatMap.mpr ⟨Category.sweep, by decide, hcol⟩), htc⟩)
    case takedown =>
      rcases mem_packColumns_flatten _ t hgrp with ⟨col, hcol, htc⟩
      exact block_tech_node g fs p y hy t
        (Or.inr ⟨col, List.mem_append_right _
          (List.mem_flatMap.mpr ⟨Category.takedown, by decide, hcol⟩), htc⟩)
    case counter =>
      rcases (mem_visibleTechs_iff g fs p t).mp ht with ⟨htm, _, hv⟩
      rcases (visible_iff g fs t).mp hv with ⟨_, _, h3⟩
      rcases h3 hcat with ⟨s, hps, _, _⟩
      rcases parentSubmission_isSubmission g t s hps with ⟨hsm, _⟩
      rcases hpos s hsm with ⟨q, hq, hqid⟩
      have hcand : t ∈ counterCandidates g fs q :=
        (counterCandidate_iff g fs q t).mpr ⟨htm, hcat, hv, s, hps, hqid.symm⟩
      rcases positionRowsAux_mem g fs g.positions 0 q hq with ⟨yq, hyq⟩
      rcases mem_packColumns_flatten _ t hcand with ⟨col, hcol, htc⟩
      exact block_tech_node g fs q yq hyq t
        (Or.inr ⟨col, List.mem_append_left _ hcol, htc⟩)

/-- Modelled from the spec: a graph whose counter references a submission
id that does not exist — the dangling-reference failure case. -/
def danglingGraph : Graph :=
  ⟨[⟨0⟩],
   [⟨1, 0, Category.submission, Difficulty.basic⟩,
    ⟨2, 0, Category.counter, Difficulty.basic⟩],
   [(9, 2)]⟩

theorem c8_dangling_counter_witness :
    visible danglingGraph fsBasicAll ⟨2, 0, Category.counter, Difficulty.basic⟩ = false ∧
      solveLayout (cleanGraph danglingGraph) fsBasicAll = solveLayout danglingGraph fsBasicAll ∧
      ∃ n ∈ solveLayout danglingGraph fsBasicAll, n.kind = NodeKind.pos ∧ n.nid = 0 := by
  have h := c8_dangling_counter danglingGraph fsBasicAll (by decide) (by decide)
  exact ⟨h.1 ⟨2, 0, Category.counter, Difficulty.basic⟩ (by decide) rfl (by decide),
    h.2.1, h.2.2.1 ⟨0⟩ (by decide)⟩

/-- Modelled from the spec (3, 6): the three difficulty tag strings. -/
def difficultyTags : List String := ["basic", "intermediate", "advanced"]

/-- Modelled from the spec (3, 6): the six fixed category tag strings. -/
def categoryTags : List String :=
  ["escape", "counter", "submission", "sweep", "pass", "takedown"]

/-- Modelled from the spec (3): the UI-level FilterState — a single
difficulty tag and the set of active category tags. -/
structure UIFilterState where
  difficultyLevel : String
  activeCategories : List String
deriving DecidableEq, Repr

/-- Modelled from the spec (3): the default FilterState — difficulty
"basic", all six categories active. -/
def initialFilterState : UIFilterState :=
  ⟨"basic", categoryTags⟩

/-- Modelled from the spec (6, 7): `setDifficulty` — an invalid tag is
rejected at the mutation boundary, a valid one replaces the single
selected level. -/
def setDifficulty (tag : String) (s : UIFilterState) : UIFilterState :=
  if difficultyTags.contains tag then { s with difficultyLevel := tag } else s

/-- Modelled from the spec (6, 7): `toggleCategory` — an unknown tag is
rejected at the mutation boundary, a known one flips its membership in
the active set. -/
def toggleCategory (tag : String) (s : UIFilterState) : UIFilterState :=
  if categoryTags.contains tag then
    if s.activeCategories.contains tag then
      { s with activeCategories := s.activeCategories.erase tag }
    else
      { s with activeCategories := tag :: s.activeCategories }
  else s

/-- Modelled from the spec: the filter states reachable from the default
state by user actions. -/
inductive ReachableFS : UIFilterState → Prop where
  | init : ReachableFS initialFilterState
  | set (tag : String) (s : UIFilterState) :
      ReachableFS s → ReachableFS (setDifficulty tag s)
  | toggle (tag : String) (s : UIFilterState) :
      ReachableFS s → ReachableFS (toggleCategory tag s)

/-- C9: the default filter state selects "basic" with all six categories
active, and in every reachable filter state the difficulty level is
exactly one of the three tags (a single string, never empty or multiple)
while the active categories stay a subset of the six fixed tags. -/
theorem c9_filter_state_invariant :
    (initialFilterState.difficultyLevel = "basic" ∧
      initialFilterState.activeCategories = categoryTags) ∧
    ∀ s : UIFilterState, ReachableFS s →
      s.difficultyLevel ∈ difficultyTags ∧ s.activeCategories ⊆ categoryTags := by
  refine ⟨⟨rfl, rfl⟩, ?_⟩
  intro s h
  induction h with
  | init => exact ⟨by decide, fun a ha => ha⟩
  | set tag s' _ ih =>
    unfold setDifficulty
    by_cases hc : difficultyTags.contains tag = true
    · rw [if_pos hc]
      refine ⟨?_, ih.2⟩
      simpa [List.contains, List.elem_iff] using hc
    · rw [if_neg hc]
      exact ih
  | toggle tag s' _ ih =>
    unfold toggleCategory
    by_cases hc : categoryTags.contains tag = true
    · rw [if_pos hc]
      by_cases hm : s'.activeCategories.contains tag = true
      · rw [if_pos hm]
        refine ⟨ih.1, ?_⟩
        intro a ha
        exact ih.2 (List.erase_subset _ _ ha)
      · rw [if_neg hm]
        refine ⟨ih.1, ?_⟩
        intro a ha
        rcases List.mem_cons.mp ha with h | h
        · subst h
          simpa [List.contains, List.elem_iff] using hc
        · exact ih.2 h
    · rw [if_neg hc]
      exact ih

theorem c9_filter_state_invariant_witness :
    (setDifficulty "advanced" (toggleCategory "sweep"
        initialFilterState)).difficultyLevel ∈ difficultyTags ∧
      (setDifficulty "advanced" (toggleCategory "sweep"
        initialFilterState)).activeCategories ⊆ categoryTags :=
  c9_filter_state_invariant.2 _
    (ReachableFS.set "advanced" _ (ReachableFS.toggle "sweep" _ ReachableFS.init))

/-- JS whitespace characters skipped by `parseFloat`. -/
def isWsChar (c : Char) : Bool :=
  c == ' ' || c == '\t' || c == '\n' || c == '\r'

/-- Decimal digit test for the `parseFloat` model. -/
def isDigitChar (c : Char) : Bool :=
  c.isDigit

/-- Value of a digit string, most significant first. -/
def natOfDigits (l : List Char) : Nat :=
  l.foldl (fun n c => 10 * n + (c.toNat - 48)) 0

/-- Unsigned decimal prefix of a character list: integer digits, an
optional fraction after a dot; fails when no digit is present — the
JS `parseFloat` NaN case, modelled as `none`. -/
def parseUnsigned (l : List Char) : Option (ℚ × List Char) :=
  let intPart := l.takeWhile isDigitChar
  let rest1 := l.dropWhile isDigitChar
  match rest1 with
  | '.' :: rest2 =>
    let fracPart := rest2.takeWhile isDigitChar
    let rest3 := rest2.dropWhile isDigitChar
    if intPart.isEmpty && fracPart.isEmpty then none
    else some ((natOfDigits intPart : ℚ) +
      (natOfDigits fracPart : ℚ) / (10 : ℚ) ^ fracPart.length, rest3)
  | _ => if intPart.isEmpty then none else some ((natOfDigits intPart : ℚ), rest1)

/-- Optional exponent suffix accepted by JS number syntax; a malformed
exponent is ignored, as `parseFloat` stops before it. -/
def parseExponent (l : List Char) : Option Int :=
  match l with
  | c :: rest =>
    if c == 'e' || c == 'E' then
      match rest with
      | '+' :: r =>
        let d := r.takeWhile isDigitChar
        if d.isEmpty then none else some (natOfDigits d : Int)
      | '-' :: r =>
        let d := r.takeWhile isDigitChar
        if d.isEmpty then none else some (-(natOfDigits d : Int))
      | r =>
        let d := r.takeWhile isDigitChar
        if d.isEmpty then none else some (natOfDigits d : Int)
    else none
  | [] => none

/-- Signed body of the `parseFloat` model. -/
def parseSigned (sgn : ℚ) (r : List Char) : Option ℚ :=
  match parseUnsigned r with
  | none => none
  | some (v, rest) =>
    match parseExponent rest with
    | some e => some (sgn * v * (10 : ℚ) ^ e)
    | none => some (sgn * v)

/-- Model of the JS builtin `parseFloat`: skip leading whitespace, read
an optional sign and a decimal number with optional exponent; `none`
stands for NaN. -/
def jsParseFloat (l : List Char) : Option ℚ :=
  match l.dropWhile isWsChar with
  | '-' :: r => parseSigned (-1) r
  | '+' :: r => parseSigned 1 r
  | r => parseSigned 1 r

/-- Model of one attempt of the regex
`translate\(([^,]+),([^)]+)\)` at the head of the list: the literal
`translate(`, a nonempty comma-free capture, a comma, a nonempty
parenthesis-free capture and the closing parenthesis. -/
def matchTranslateAt (l : List Char) : Option (List Char × List Char) :=
  if ("translate(".toList).isPrefixOf l then
    let rest := l.drop 10
    let c1 := rest.takeWhile (fun c => c != ',')
    let r1 := rest.dropWhile (fun c => c != ',')
    if c1.isEmpty then none
    else
      match r1 with
      | [] => none
      | _ :: r2 =>
        let c2 := r2.takeWhile (fun c => c != ')')
        let r3 := r2.dropWhile (fun c => c != ')')
        if c2.isEmpty || r3.isEmpty then none else some (c1, c2)
  else none

/-- Model of one attempt of the regex `scale\(([^)]+)\)` at the head of
the list. -/
def matchScaleAt (l : List Char) : Option (List Char) :=
  if ("scale(".toList).isPrefixOf l then
    let rest := l.drop 6
    let c1 := rest.takeWhile (fun c => c != ')')
    let r1 := rest.dropWhile (fun c => c != ')')
    if c1.isEmpty || r1.isEmpty then none else some c1
  else none

/-- Regex search: try a match at every start index, leftmost first —
`String.prototype.match` without the global flag. -/
def scanFor {α : Type} (f : List Char → Option α) : List Char → Option α
  | [] => f []
  | c :: rest =>
    match f (c :: rest) with
    | some r => some r
    | none => scanFor f rest

/-- The page state `getZoomTransform` inspects: the diagram's group
element may be absent, and if present its transform attribute may be
absent. -/
structure PageState where
  gElement : Option (Option String)
deriving DecidableEq, Repr

/-- The `{x, y, k}` record returned by `getZoomTransform`; each component
is a JS number, with `none` standing for NaN. -/
structure ZoomTransform where
  x : Option ℚ
  y : Option ℚ
  k : Option ℚ
deriving DecidableEq, Repr

/-- The default transform `{x: 0, y: 0, k: 1}`. -/
def defaultTransform : ZoomTransform :=
  ⟨some 0, some 0, some 1⟩

/-- Embedding of `getZoomTransform` from `tests/helpers.js`: default when
the group element or its transform attribute is missing (or the attribute
is the empty string, which is falsy), otherwise each component comes from
`parseFloat` on its regex capture, with the regex-miss fallbacks 0, 0
and 1. -/
def getZoomTransform (page : PageState) : ZoomTransform :=
  match page.gElement with
  | none => defaultTransform
  | some a =>
    match a with
    | none => defaultTransform
    | some transform =>
      if transform.isEmpty then defaultTransform
      else
        let l := transform.toList
        let tm := scanFor matchTranslateAt l
        let sm := scanFor matchScaleAt l
        { x := match tm with | some q => jsParseFloat q.1 | none => some 0
          y := match tm with | some q => jsParseFloat q.2 | none => some 0
          k := match sm with | some c => jsParseFloat c | none => some 1 }

/-- The page whose transform attribute carries a non-numeric x capture. -/
def nanPage : PageState :=
  ⟨some (some "translate(abc,5) scale(2)")⟩

theorem c10_counterexample :
    jsParseFloat "abc".toList = none ∧
      (getZoomTransform nanPage).x = none ∧
      (getZoomTransform nanPage).x ≠ some 0 ∧
      (getZoomTransform nanPage).y = some 5 ∧
      (getZoomTransform nanPage).k = some 2 := by
  have hy : (getZoomTransform nanPage).y = some (1 * ((natOfDigits ['5'] : Nat) : ℚ)) := rfl
  have hk : (getZoomTransform nanPage).k = some (1 * ((natOfDigits ['2'] : Nat) : ℚ)) := rfl
  have h5 : natOfDigits ['5'] = 5 := by decide
  have h2 : natOfDigits ['2'] = 2 := by decide
  refine ⟨rfl, rfl, ?_, ?_, ?_⟩
  · intro h
    exact Option.noConfusion h
  · rw [hy, h5]
    norm_num
  · rw [hk, h2]
    norm_num

/-- C10 (amended): `getZoomTransform` is total; it returns the default
transform when the group element or its transform attribute is absent
(or empty), and when the attribute is present a component falls back to
its default exactly when its regex capture is missing — a captured but
non-numeric component passes through `parseFloat` and yields NaN rather
than the default. -/
theorem c10_zoom_transform (page : PageState) :
    (page.gElement = none → getZoomTransform page = defaultTransform) ∧
    (page.gElement = some none → getZoomTransform page = defaultTransform) ∧
    (∀ s : String, page.gElement = some (some s) → s.isEmpty = true →
      getZoomTransform page = defaultTransform) ∧
    (∀ s : String, page.gElement = some (some s) → s.isEmpty = false →
      (scanFor matchTranslateAt s.toList = none →
        (getZoomTransform page).x = some 0 ∧ (getZoomTransform page).y = some 0) ∧
      (scanFor matchScaleAt s.toList = none → (getZoomTransform page).k = some 1) ∧
      (∀ c1 c2, scanFor matchTranslateAt s.toList = some (c1, c2) →
        (getZoomTransform page).x = jsParseFloat c1 ∧
          (getZoomTransform page).y = jsParseFloat c2) ∧
      (∀ c, scanFor matchScaleAt s.toList = some c →
        (getZoomTransform page).k = jsParseFloat c)) := by
  refine ⟨?_, ?_, ?_, ?_⟩
  · intro h
    unfold getZoomTransform
    rw [h]
  · intro h
    unfold getZoomTransform
    rw [h]
  · intro s hs he
    unfold getZoomTransform
    rw [hs]
    simp only [he, if_true]
  · intro s hs he
    unfold getZoomTransform
    rw [hs]
    simp only [he, Bool.false_eq_true, if_false]
    refine ⟨?_, ?_, ?_, ?_⟩
    · intro ht
      rw [ht]
      exact ⟨rfl, rfl⟩
    · intro hk
      rw [hk]
    · intro c1 c2 ht
      rw [ht]
      exact ⟨rfl, rfl⟩
    · intro c hk
      rw [hk]

/-- The page used to exercise the amended zoom-transform description. -/
def scaleOnlyPage : PageState :=
  ⟨some (some "scale(1.5)")⟩

theorem c10_zoom_transform_witness :
    (getZoomTransform ⟨none⟩ = defaultTransform) ∧
      (getZoomTransform scaleOnlyPage).x = some 0 ∧
      (getZoomTransform scaleOnlyPage).k = jsParseFloat "1.5".toList := by
  have h1 := (c10_zoom_transform ⟨none⟩).1 rfl
  have h2 := ((c10_zoom_transform scaleOnlyPage).2.2.2 "scale(1.5)" rfl rfl).1 (by rfl)
  have h3 := ((c10_zoom_transform scaleOnlyPage).2.2.2 "scale(1.5)" rfl rfl).2.2.2
    "1.5".toList (by rfl)
  exact ⟨h1, h2.1, h3⟩

end BJJ
